import Mathlib

/-!
# File discovery utilities of `util/fileUtils.go`

A shallow embedding of the file-discovery helpers (exclusion registry,
extension classifier, spec and concept finders, deduplication and path
helpers) together with the properties established for them.

* Go strings are modelled as lists of runes (`List Char`); the functions of
  `path/filepath` are the Unix ones (separator `/`, no volume names).
* The package variable `ignoredDirectories` is passed explicitly: a function
  that writes it takes the registry and returns the new one.
* What the functions read from their surroundings (project root, environment
  variables, configured spec extensions, working directory) is gathered in
  `Session`; the file system is a `FileSystem`.
* `exitWithMessage` ends the process; a function that may call it returns an
  `Except` whose error is the message.
-/

set_option autoImplicit false

namespace FileUtils

/-- A Go string, as its sequence of runes. -/
abbrev Str := List Char

/-! ## Go library functions used by the source -/

/-- `filepath.Separator` on Unix. -/
def Separator : Char := '/'

/-- `strings.HasPrefix`. -/
def HasPrefix (s pre : Str) : Bool := pre.isPrefixOf s

/-- `strings.TrimPrefix`: `s` without the leading `pre`, or `s` itself when
`s` does not start with `pre`. -/
def TrimPrefix (s pre : Str) : Str :=
  if HasPrefix s pre then s.drop pre.length else s

/-- `strings.Join(elems, sep)` for a one-rune separator. -/
def StringsJoin (sep : Char) : List Str → Str
  | [] => []
  | [e] => e
  | e :: f :: es => e ++ sep :: StringsJoin sep (f :: es)

/-- `strings.Split(s, sep)` for a one-rune separator; the result always has
at least one piece. -/
def Split (sep : Char) : Str → List Str
  | [] => [[]]
  | c :: cs =>
    if c = sep then [] :: Split sep cs
    else
      match Split sep cs with
      | [] => [[c]]
      | piece :: pieces => (c :: piece) :: pieces

/-- `unicode.IsSpace`: the runes with the Unicode White_Space property. -/
def isSpace (c : Char) : Bool :=
  let n := c.toNat
  n == 9 || n == 10 || n == 11 || n == 12 || n == 13 || n == 32 || n == 0x85 || n == 0xA0
    || n == 0x1680 || (0x2000 ≤ n && n ≤ 0x200a) || n == 0x2028 || n == 0x2029
    || n == 0x202f || n == 0x205f || n == 0x3000

/-- `strings.TrimSpace`: leading and trailing white space removed. -/
def TrimSpace (s : Str) : Str :=
  ((s.dropWhile isSpace).reverse.dropWhile isSpace).reverse

/-- The rune mapping of `strings.ToLower`: ASCII letters are lowered directly,
a rune outside ASCII goes through the Unicode case table `unicodeLower`
(`unicode.ToLower`), which is a parameter of the development. -/
def lowerRune (unicodeLower : Char → Char) (c : Char) : Char :=
  if c.toNat < 128 then c.toLower else unicodeLower c

/-- `strings.ToLower`. -/
def ToLower (unicodeLower : Char → Char) (s : Str) : Str :=
  s.map (lowerRune unicodeLower)

/-- The backwards scan of `filepath.Ext` over the reversed path; `acc` is the
suffix already passed. -/
def extScan : Str → Str → Str
  | [], _ => []
  | c :: before, acc =>
    if c = '/' then []
    else if c = '.' then '.' :: acc
    else extScan before (c :: acc)

/-- `filepath.Ext`: the suffix beginning at the final dot in the final
element of `path`, empty if there is no dot. -/
def Ext (path : Str) : Str := extScan path.reverse []

/-- `filepath.IsAbs` on Unix. -/
def IsAbs (path : Str) : Bool := HasPrefix path ['/']

/-- One iteration of the element loop of `filepath.Clean`. `out` is the list
of elements written to the buffer so far, the last written first. An empty
element and `.` write nothing; `..` removes the last written element when
there is one to backtrack over (one that is not itself a leading `..`), is
written when the path is not rooted, and is dropped at the root; any other
element is written. -/
def cleanStep (rooted : Bool) (out : List Str) (elem : Str) : List Str :=
  if elem = [] then out
  else if elem = ['.'] then out
  else if elem = ['.', '.'] then
    match out with
    | top :: below =>
      if top ≠ ['.', '.'] then below
      else if !rooted then elem :: out
      else out
    | [] => if !rooted then [elem] else []
  else elem :: out

/-- `filepath.Clean` on Unix, element by element. -/
def Clean (path : Str) : Str :=
  if path = [] then ['.']
  else
    let rooted := HasPrefix path ['/']
    let out := ((Split '/' path).foldl (cleanStep rooted) []).reverse
    if rooted then '/' :: StringsJoin '/' out
    else if out = [] then ['.']
    else StringsJoin '/' out

/-- `filepath.Join`: the elements from the first non-empty one on, joined by
the separator and cleaned; the empty string when every element is empty. -/
def Join (elem : List Str) : Str :=
  match elem.dropWhile List.isEmpty with
  | [] => []
  | e :: es => Clean (StringsJoin '/' (e :: es))

/-- `filepath.Abs` on Unix; `wd` is the result of `os.Getwd` (`none` when it
fails, in which case `Abs` of a relative path fails too). -/
def Abs (wd : Option Str) (path : Str) : Option Str :=
  if IsAbs path then some (Clean path)
  else
    match wd with
    | none => none
    | some dir => some (Join [dir, path])

/-- The name `os.Lstat(name)` reports (`basename` of package `os`): trailing
slashes removed, then the part after the last remaining slash. -/
def basename (name : Str) : Str :=
  match name with
  | [] => []
  | c :: cs =>
    match (c :: (cs.reverse.dropWhile (fun x => x == '/')).reverse).reverse with
    | [] => []
    | last :: before => (before.takeWhile (fun x => x != '/')).reverse ++ [last]

/-! ## Deduplication -/

/-- The loop of `removeDuplicateValues`: `keys` is the membership map, `list`
the output built so far. -/
def removeDuplicateValuesLoop : Finset Str → List Str → List Str → List Str
  | _, list, [] => list
  | keys, list, entry :: rest =>
    if entry ∈ keys then removeDuplicateValuesLoop keys list rest
    else removeDuplicateValuesLoop (insert entry keys) (list ++ [entry]) rest

/-- `removeDuplicateValues(slice)`. -/
def removeDuplicateValues (slice : List Str) : List Str :=
  removeDuplicateValuesLoop ∅ [] slice

/-! ## Ambient configuration -/

/-- What the functions read from outside this file: `config.ProjectRoot`, the
constants `common.EnvDirectoryName`, `env.GaugeReportsDir` and
`env.LogsDirectory` (names of environment variables), `os.Getenv`, the list
returned by `env.GaugeSpecFileExtensions()` (file-extension strings such as
`.spec`), the result of `os.Getwd`, and the Unicode lower-case table behind
`strings.ToLower`. -/
structure Session where
  ProjectRoot : Str
  EnvDirectoryName : Str
  GaugeReportsDir : Str
  LogsDirectory : Str
  Getenv : Str → Str
  GaugeSpecFileExtensions : List Str
  Getwd : Option Str
  unicodeLower : Char → Char

/-- The constant `gaugeExcludeDirectories`. -/
def gaugeExcludeDirectories : Str := "gauge_exclude_dirs".toList

/-- The constant `cptFileExtension`. -/
def cptFileExtension : Str := ".cpt".toList

/-! ## Exclusion registry -/

/-- The package variable `ignoredDirectories`, a `map[string]bool` in which
only `true` is ever stored: the set of its keys. -/
abbrev Registry := Finset Str

/-- `add(value)`. -/
def add (s : Session) (value : Str) (ignoredDirectories : Registry) : Registry :=
  let value := TrimSpace value
  if !IsAbs value then
    match Abs s.Getwd (Join [s.ProjectRoot, value]) with
    | none => ignoredDirectories
    | some path => insert path ignoredDirectories
  else insert value ignoredDirectories

/-- `addDirectories(value)`. -/
def addDirectories (s : Session) (value : Str) (ignoredDirectories : Registry) : Registry :=
  (Split ',' value).foldl (fun reg dir => add s dir reg) ignoredDirectories

/-- `addDirFromEnv(name, add)`. -/
def addDirFromEnv (s : Session) (name : Str) (add : Str → Registry → Registry)
    (ignoredDirectories : Registry) : Registry :=
  let value := s.Getenv name
  if value ≠ [] then add value ignoredDirectories else ignoredDirectories

/-- `addIgnoredDirectories()`. -/
def addIgnoredDirectories (s : Session) (ignoredDirectories : Registry) : Registry :=
  let r1 := insert (Join [s.ProjectRoot, "gauge_bin".toList]) ignoredDirectories
  let r2 := insert (Join [s.ProjectRoot, "reports".toList]) r1
  let r3 := insert (Join [s.ProjectRoot, "logs".toList]) r2
  let r4 := insert (Join [s.ProjectRoot, s.EnvDirectoryName]) r3
  let r5 := addDirFromEnv s s.GaugeReportsDir (add s) r4
  let r6 := addDirFromEnv s s.LogsDirectory (add s) r5
  addDirFromEnv s gaugeExcludeDirectories (addDirectories s) r6

/-! ## Extension classifier -/

/-- `IsValidSpecExtension(path)`. -/
def IsValidSpecExtension (s : Session) (path : Str) : Bool :=
  s.GaugeSpecFileExtensions.any (fun ext => ext == ToLower s.unicodeLower (Ext path))

/-- `IsValidConceptExtension(path)`. -/
def IsValidConceptExtension (s : Session) (path : Str) : Bool :=
  ToLower s.unicodeLower (Ext path) == cptFileExtension

/-- `IsConcept(path)`. -/
def IsConcept (s : Session) (path : Str) : Bool := IsValidConceptExtension s path

/-- `IsSpec(path)`. -/
def IsSpec (s : Session) (path : Str) : Bool := IsValidSpecExtension s path

/-- `IsGaugeFile(path)`. -/
def IsGaugeFile (s : Session) (path : Str) : Bool := IsConcept s path || IsSpec s path

/-! ## Directory walk -/

/-- The part of `os.FileInfo` the skip predicates look at. -/
structure FileInfo where
  Name : Str
  IsDir : Bool

/-- One entry of a directory tree: its path and whether it is a directory. -/
structure DirEntry where
  path : Str
  isDir : Bool
deriving DecidableEq

/-- The file system as the functions see it: the answers of
`common.FileExists` and `common.DirExists`, and the entries of the directory
tree, each with its absolute cleaned path, listed in walk order. -/
structure FileSystem where
  FileExists : Str → Bool
  DirExists : Str → Bool
  entries : List DirEntry

/-- Whether `path` lies strictly below the directory `dir`: `path` starts
with `dir` followed by a separator (the separator `dir` already ends in,
for the root directory). -/
def liesUnder (dir path : Str) : Bool :=
  path != dir &&
    (if dir.getLast? = some '/' then HasPrefix path dir else HasPrefix path (dir ++ ['/']))

/-- Whether a walk rooted at `root` meets `path`: the root itself and
everything below it. -/
def inWalk (root path : Str) : Bool := path == root || liesUnder root path

/-- The `os.FileInfo` of an entry. -/
def DirEntry.info (e : DirEntry) : FileInfo := ⟨basename e.path, e.isDir⟩

/-- Modelled from the spec: `common.FindFilesInDir`, the recursive walk of
the external package `common`, which is not part of this file. The walk
calls `shouldSkip` on every directory entry it meets, a skipped directory
is pruned with its whole subtree, and `isValidFile` decides for every file
entry that is not pruned whether it is part of the result; the results
follow the walk order. -/
def FindFilesInDir (fs : FileSystem) (dirPath : Str) (isValidFile : Str → Bool)
    (shouldSkip : Str → FileInfo → Bool) : List Str :=
  let pruned := fun (e : DirEntry) =>
    fs.entries.any (fun d =>
      d.isDir && inWalk dirPath d.path && inWalk d.path e.path && shouldSkip d.path d.info)
  ((fs.entries.filter (fun e => inWalk dirPath e.path && !pruned e)).filter
    (fun e => !e.isDir && isValidFile e.path)).map DirEntry.path

/-- `findFilesIn(dirRoot, isValidFile, shouldSkip)`; the error of
`filepath.Abs` is dropped by the source, which leaves the empty string. -/
def findFilesIn (fs : FileSystem) (s : Session) (dirRoot : Str) (isValidFile : Str → Bool)
    (shouldSkip : Str → FileInfo → Bool) : List Str :=
  let absRoot := (Abs s.Getwd dirRoot).getD []
  FindFilesInDir fs absRoot isValidFile shouldSkip

/-- `FindSpecFilesIn(dir)`. -/
def FindSpecFilesIn (fs : FileSystem) (s : Session) (dir : Str) : List Str :=
  findFilesIn fs s dir (IsValidSpecExtension s) (fun _ _ => false)

/-- `FindConceptFilesIn(dir)`: the files found and the registry it leaves. -/
def FindConceptFilesIn (fs : FileSystem) (s : Session) (dir : Str)
    (ignoredDirectories : Registry) : List Str × Registry :=
  let ignoredDirectories := addIgnoredDirectories s ignoredDirectories
  (findFilesIn fs s dir (IsValidConceptExtension s) (fun path f =>
    if !f.IsDir then false
    else
      let ok := decide (path ∈ ignoredDirectories)
      HasPrefix f.Name ['.'] || ok), ignoredDirectories)

/-! ## Spec finder -/

/-- The loop of `GetSpecFiles`; `specFiles` is the slice built so far. A
call of `exitWithMessage` ends the run with its message as the error. -/
def GetSpecFilesLoop (fs : FileSystem) (s : Session) :
    List Str → List Str → Except Str (List Str)
  | specFiles, [] => .ok specFiles
  | specFiles, path :: rest =>
    if !fs.FileExists path then
      .error ("Specs directory ".toList ++ path ++ " does not exist.".toList)
    else if fs.DirExists path then
      let specFilesInpath := FindSpecFilesIn fs s path
      if specFilesInpath.length < 1 then
        .error ("No specifications found in ".toList ++ path ++ ".".toList)
      else GetSpecFilesLoop fs s (specFiles ++ specFilesInpath) rest
    else if IsValidSpecExtension s path then
      let f := (Abs s.Getwd path).getD []
      GetSpecFilesLoop fs s (specFiles ++ [f]) rest
    else GetSpecFilesLoop fs s specFiles rest

/-- `GetSpecFiles(paths)`. -/
def GetSpecFiles (fs : FileSystem) (s : Session) (paths : List Str) : Except Str (List Str) :=
  GetSpecFilesLoop fs s [] paths

/-! ## Path helpers -/

/-- `RelPathToProjectRoot(path)`. -/
def RelPathToProjectRoot (s : Session) (path : Str) : Str :=
  TrimPrefix path (s.ProjectRoot ++ [Separator])

/-! ## The registry as the specification describes it -/

/-- The path `add` stores for one override entry: the trimmed entry itself
when it is absolute, otherwise its resolution against the project root;
nothing when that resolution fails. -/
def resolveEntry (s : Session) (value : Str) : Option Str :=
  if IsAbs (TrimSpace value) then some (TrimSpace value)
  else Abs s.Getwd (Join [s.ProjectRoot, TrimSpace value])

/-- The four default exclusions under the project root. -/
def defaultExclusions (s : Session) : Finset Str :=
  {Join [s.ProjectRoot, "gauge_bin".toList], Join [s.ProjectRoot, "reports".toList],
    Join [s.ProjectRoot, "logs".toList], Join [s.ProjectRoot, s.EnvDirectoryName]}

/-- The resolved value of a single-valued override, when it is set. -/
def singleOverride (s : Session) (name : Str) : Finset Str :=
  if s.Getenv name = [] then ∅ else (resolveEntry s (s.Getenv name)).toFinset

/-- The resolved entries of the comma-separated override, when it is set. -/
def listOverride (s : Session) (name : Str) : Finset Str :=
  if s.Getenv name = [] then ∅
  else ((Split ',' (s.Getenv name)).filterMap (resolveEntry s)).toFinset

/-- The set the specification gives for a rebuild: the four defaults under
the project root plus the resolved values of the reports-dir, logs-dir and
exclude-dirs overrides. -/
def configuredExclusions (s : Session) : Finset Str :=
  defaultExclusions s ∪ singleOverride s s.GaugeReportsDir
    ∪ singleOverride s s.LogsDirectory ∪ listOverride s gaugeExcludeDirectories

/-- The raw entries of the three overrides of a session: the reports-dir and
the logs-dir value when set, and the comma-separated pieces of the
exclude-dirs value when set. -/
def overrideEntries (s : Session) : List Str :=
  (if s.Getenv s.GaugeReportsDir = [] then [] else [s.Getenv s.GaugeReportsDir])
    ++ (if s.Getenv s.LogsDirectory = [] then [] else [s.Getenv s.LogsDirectory])
    ++ (if s.Getenv gaugeExcludeDirectories = [] then []
        else Split ',' (s.Getenv gaugeExcludeDirectories))

/-- The registry after a sequence of rebuilds, one for each session in
order, started from the empty registry. -/
def rebuildAll (sessions : List Session) : Registry :=
  sessions.foldl (fun reg s => addIgnoredDirectories s reg) ∅

/-! ## Paths that differ in the letter case of the extension -/

/-- Two runes that are the same up to letter case: equal, or letters (so
neither the dot nor the separator) with the same lower-case form. -/
def sameLetter (unicodeLower : Char → Char) (c d : Char) : Bool :=
  c == d || (lowerRune unicodeLower c == lowerRune unicodeLower d
    && c != '.' && c != '/' && d != '.' && d != '/')

/-- Two strings of the same length that agree rune by rune up to letter
case. -/
def caseVariant (unicodeLower : Char → Char) : Str → Str → Bool
  | [], [] => true
  | c :: cs, d :: ds => sameLetter unicodeLower c d && caseVariant unicodeLower cs ds
  | _, _ => false

/-- The part of a path before its extension. -/
def stem (path : Str) : Str := path.take (path.length - (Ext path).length)

/-- Two paths that differ only in the letter case of their extension: `q` is
the part of `p` before its extension followed by a case variant of the
extension of `p`. -/
def differOnlyInExtensionCase (unicodeLower : Char → Char) (p q : Str) : Bool :=
  q.take (stem p).length == stem p && caseVariant unicodeLower (Ext p) (q.drop (stem p).length)

/-! ## Cleaned paths -/

/-- A path element that `filepath.Clean` writes as it is: not empty, not `.`
and not `..`, and without a separator in it. -/
def realElem (e : Str) : Prop := e ≠ [] ∧ e ≠ ['.'] ∧ e ≠ ['.', '.'] ∧ '/' ∉ e

/-! ## Example trees -/

/-- A session with project root `root`, the default spec extensions, an
environment directory called `env`, and the three overrides set to
`reports`, `logs` and `exclude`. -/
def sessionOf (root reports logs exclude : Str) : Session where
  ProjectRoot := root
  EnvDirectoryName := "env".toList
  GaugeReportsDir := "gauge_reports_dir".toList
  LogsDirectory := "logs_directory".toList
  Getenv := fun name =>
    if name = "gauge_reports_dir".toList then reports
    else if name = "logs_directory".toList then logs
    else if name = "gauge_exclude_dirs".toList then exclude
    else []
  GaugeSpecFileExtensions := [".spec".toList, ".md".toList]
  Getwd := some "/".toList
  unicodeLower := id

/-- The tree of the end-to-end example: `/p` with `a.spec`, `concepts/c.cpt`
and `reports/b.spec`. -/
def exampleTree : FileSystem where
  FileExists := fun p => p ∈ ["/".toList, "/p".toList, "/p/a.spec".toList, "/p/concepts".toList,
    "/p/concepts/c.cpt".toList, "/p/reports".toList, "/p/reports/b.spec".toList]
  DirExists := fun p => p ∈ ["/".toList, "/p".toList, "/p/concepts".toList, "/p/reports".toList]
  entries := [⟨"/".toList, true⟩, ⟨"/p".toList, true⟩, ⟨"/p/a.spec".toList, false⟩,
    ⟨"/p/concepts".toList, true⟩, ⟨"/p/concepts/c.cpt".toList, false⟩,
    ⟨"/p/reports".toList, true⟩, ⟨"/p/reports/b.spec".toList, false⟩]

/-- A tree with concept files below the default-excluded directory
`/p/reports` and below the hidden directory `/p/.hidden`. -/
def excludedTree : FileSystem where
  FileExists := fun p => p ∈ ["/".toList, "/p".toList, "/p/.hidden".toList,
    "/p/.hidden/sub".toList, "/p/.hidden/sub/h.cpt".toList, "/p/reports".toList,
    "/p/reports/r.cpt".toList, "/p/reports/sub".toList, "/p/reports/sub/x.cpt".toList]
  DirExists := fun p => p ∈ ["/".toList, "/p".toList, "/p/.hidden".toList,
    "/p/.hidden/sub".toList, "/p/reports".toList, "/p/reports/sub".toList]
  entries := [⟨"/".toList, true⟩, ⟨"/p".toList, true⟩, ⟨"/p/.hidden".toList, true⟩,
    ⟨"/p/.hidden/sub".toList, true⟩, ⟨"/p/.hidden/sub/h.cpt".toList, false⟩,
    ⟨"/p/reports".toList, true⟩, ⟨"/p/reports/r.cpt".toList, false⟩,
    ⟨"/p/reports/sub".toList, true⟩, ⟨"/p/reports/sub/x.cpt".toList, false⟩]

/-! ## Deduplication: properties -/

/-- The output list is only ever extended: the loop started with `list`
returns `list` followed by what it returns started with the empty list. -/
theorem loop_append (keys : Finset Str) (list rest : List Str) :
    removeDuplicateValuesLoop keys list rest
      = list ++ removeDuplicateValuesLoop keys [] rest := by
  induction rest generalizing keys list with
  | nil => simp [removeDuplicateValuesLoop]
  | cons x xs ih =>
    unfold removeDuplicateValuesLoop
    by_cases hx : x ∈ keys
    · simp only [hx, if_true]; exact ih keys list
    · simp only [hx, if_false]
      rw [ih (insert x keys) (list ++ [x]), ih (insert x keys) ([] ++ [x])]
      simp

theorem loop_cons (keys : Finset Str) (x : Str) (xs : List Str) :
    removeDuplicateValuesLoop keys [] (x :: xs)
      = if x ∈ keys then removeDuplicateValuesLoop keys [] xs
        else x :: removeDuplicateValuesLoop (insert x keys) [] xs := by
  conv_lhs => unfold removeDuplicateValuesLoop
  by_cases hx : x ∈ keys
  · simp [hx]
  · simp only [hx, if_false]
    rw [loop_append]; simp

theorem mem_loop (keys : Finset Str) (rest : List Str) (y : Str) :
    y ∈ removeDuplicateValuesLoop keys [] rest ↔ y ∈ rest ∧ y ∉ keys := by
  induction rest generalizing keys with
  | nil => simp [removeDuplicateValuesLoop]
  | cons x xs ih =>
    rw [loop_cons]
    by_cases hx : x ∈ keys
    · simp only [hx, if_true, ih, List.mem_cons]
      constructor
      · rintro ⟨h1, h2⟩; exact ⟨Or.inr h1, h2⟩
      · rintro ⟨h1 | h1, h2⟩
        · subst h1; exact absurd hx h2
        · exact ⟨h1, h2⟩
    · simp only [hx, if_false, List.mem_cons, ih, Finset.mem_insert]
      constructor
      · rintro (h | ⟨h1, h2⟩)
        · subst h; exact ⟨Or.inl rfl, hx⟩
        · exact ⟨Or.inr h1, fun h => h2 (Or.inr h)⟩
      · rintro ⟨h1 | h1, h2⟩
        · exact Or.inl h1
        · by_cases hyx : y = x
          · exact Or.inl hyx
          · exact Or.inr ⟨h1, fun h => h.elim hyx h2⟩

theorem nodup_loop (keys : Finset Str) (rest : List Str) :
    (removeDuplicateValuesLoop keys [] rest).Nodup := by
  induction rest generalizing keys with
  | nil => simp [removeDuplicateValuesLoop]
  | cons x xs ih =>
    rw [loop_cons]
    by_cases hx : x ∈ keys
    · simp only [hx, if_true]; exact ih keys
    · simp only [hx, if_false, List.nodup_cons]
      refine ⟨?_, ih _⟩
      rw [mem_loop]; simp

theorem sublist_loop (keys : Finset Str) (rest : List Str) :
    (removeDuplicateValuesLoop keys [] rest).Sublist rest := by
  induction rest generalizing keys with
  | nil => simp [removeDuplicateValuesLoop]
  | cons x xs ih =>
    rw [loop_cons]
    by_cases hx : x ∈ keys
    · simp only [hx, if_true]; exact (ih keys).cons x
    · simp only [hx, if_false]; exact (ih _).cons₂ x

theorem toFinset_concat_of_mem (pre : List Str) (x : Str) (hx : x ∈ pre) :
    (pre ++ [x]).toFinset = pre.toFinset := by
  ext y; simp only [List.mem_toFinset, List.mem_append, List.mem_singleton]
  constructor
  · rintro (h | h)
    · exact h
    · subst h; exact hx
  · exact Or.inl

theorem toFinset_concat (pre : List Str) (x : Str) :
    (pre ++ [x]).toFinset = insert x pre.toFinset := by
  ext y; simp only [List.mem_toFinset, List.mem_append, List.mem_singleton, Finset.mem_insert]
  tauto

theorem indexOf_append_not_mem {α : Type} [BEq α] [LawfulBEq α] {a : α} {l₁ l₂ : List α}
    (h : a ∉ l₁) : (l₁ ++ l₂).indexOf a = l₁.length + l₂.indexOf a := by
  induction l₁ with
  | nil => simp
  | cons d t ih =>
    have hd : ¬ d = a := fun e => h (e ▸ List.mem_cons_self _ _)
    have ht : a ∉ t := fun e => h (List.mem_cons_of_mem _ e)
    have hb : (d == a) = false := by simpa using hd
    simp only [List.cons_append, List.indexOf_cons, hb, cond_false, ih ht, List.length_cons]
    omega

theorem pairwise_loop (pre rest : List Str) :
    (removeDuplicateValuesLoop pre.toFinset [] rest).Pairwise
      (fun a b => (pre ++ rest).indexOf a < (pre ++ rest).indexOf b) := by
  induction rest generalizing pre with
  | nil => simp [removeDuplicateValuesLoop]
  | cons x xs ih =>
    rw [loop_cons]
    have hassoc : pre ++ x :: xs = (pre ++ [x]) ++ xs := by simp
    by_cases hx : x ∈ pre
    · simp only [List.mem_toFinset, hx, if_true]
      have := ih (pre ++ [x])
      rw [toFinset_concat_of_mem pre x hx] at this
      rw [hassoc]; exact this
    · simp only [List.mem_toFinset, hx, if_false, List.pairwise_cons]
      constructor
      · intro b hb
        rw [mem_loop] at hb
        obtain ⟨hb1, hb2⟩ := hb
        simp only [Finset.mem_insert, List.mem_toFinset, not_or] at hb2
        rw [indexOf_append_not_mem hx, indexOf_append_not_mem hb2.2]
        have hxb : (x == b) = false := by simpa using Ne.symm hb2.1
        simp [List.indexOf_cons, hxb]
      · have := ih (pre ++ [x])
        rw [toFinset_concat] at this
        rw [hassoc]; exact this

theorem loop_eq_filter (pre rest : List Str) :
    removeDuplicateValuesLoop pre.toFinset [] rest
      = ((rest.enumFrom pre.length).filter
          (fun p => decide (p.2 ∉ (pre ++ rest).take p.1))).map Prod.snd := by
  induction rest generalizing pre with
  | nil => simp [removeDuplicateValuesLoop]
  | cons x xs ih =>
    rw [loop_cons]
    have hassoc : pre ++ x :: xs = (pre ++ [x]) ++ xs := by simp
    have hlen : (pre ++ [x]).length = pre.length + 1 := by simp
    have htake : (pre ++ x :: xs).take pre.length = pre := by simp
    have ih1 := ih (pre ++ [x])
    rw [hlen, ← hassoc] at ih1
    rw [List.enumFrom_cons, List.filter_cons]
    by_cases hx : x ∈ pre
    · simp only [List.mem_toFinset, hx, if_true, htake, not_true_eq_false, decide_False,
        Bool.false_eq_true, if_false]
      rw [← ih1, toFinset_concat_of_mem pre x hx]
    · simp only [List.mem_toFinset, hx, if_false, htake, not_false_eq_true, decide_True,
        if_true, List.map_cons]
      rw [← ih1, toFinset_concat]

/-- C1: `removeDuplicateValues` returns exactly the input with every element
removed that is equal to some earlier element (the entries whose value does
not occur among the entries before them, in input order). The output has no
repeated elements, is a subsequence of the input, contains every value of
the input, and lists the values in the order of their first occurrence;
`[a,b,a,c,b]` gives `[a,b,c]`. -/
theorem removeDuplicateValues_first_occurrences (slice : List Str) :
    removeDuplicateValues slice
        = ((slice.enum.filter (fun p => decide (p.2 ∉ slice.take p.1))).map Prod.snd)
      ∧ (removeDuplicateValues slice).Nodup
      ∧ (removeDuplicateValues slice).Sublist slice
      ∧ (∀ x, x ∈ removeDuplicateValues slice ↔ x ∈ slice)
      ∧ (removeDuplicateValues slice).Pairwise
          (fun a b => slice.indexOf a < slice.indexOf b)
      ∧ removeDuplicateValues
          ["a".toList, "b".toList, "a".toList, "c".toList, "b".toList]
          = ["a".toList, "b".toList, "c".toList] := by
  refine ⟨?_, nodup_loop _ _, sublist_loop _ _, ?_, ?_, by decide⟩
  · have := loop_eq_filter [] slice
    simpa [removeDuplicateValues, List.enum] using this
  · intro x
    simp [removeDuplicateValues, mem_loop]
  · have := pairwise_loop [] slice
    simpa [removeDuplicateValues] using this

/-! ## Path helpers: properties -/

theorem TrimPrefix_append (pre t : Str) : TrimPrefix (pre ++ t) pre = t := by
  simp [TrimPrefix, HasPrefix]

theorem TrimPrefix_of_not_prefix (pre path : Str) (h : ¬ pre <+: path) :
    TrimPrefix path pre = path := by
  simp [TrimPrefix, HasPrefix, h]

/-- C8: for every project root `r` and every string `t`,
`RelPathToProjectRoot` of `r`, the separator and `t` is `t`; a path that
does not start with `r` followed by the separator is returned unchanged. -/
theorem RelPathToProjectRoot_strips_root (s : Session) :
    (∀ t : Str, RelPathToProjectRoot s (s.ProjectRoot ++ [Separator] ++ t) = t)
      ∧ (∀ path : Str, ¬ (s.ProjectRoot ++ [Separator]) <+: path →
          RelPathToProjectRoot s path = path) :=
  ⟨fun t => TrimPrefix_append _ t, fun path h => TrimPrefix_of_not_prefix _ path h⟩

/-- The two cases of C8 at the project root `/p`: a path inside it and a
path outside it. -/
theorem RelPathToProjectRoot_strips_root_witness :
    RelPathToProjectRoot (sessionOf "/p".toList [] [] []) "/p/specs/a.spec".toList
        = "specs/a.spec".toList
      ∧ ¬ ("/p".toList ++ [Separator]) <+: "/q/a.spec".toList
      ∧ RelPathToProjectRoot (sessionOf "/p".toList [] [] []) "/q/a.spec".toList
        = "/q/a.spec".toList :=
  ⟨(RelPathToProjectRoot_strips_root (sessionOf "/p".toList [] [] [])).1 "specs/a.spec".toList,
   by decide,
   (RelPathToProjectRoot_strips_root (sessionOf "/p".toList [] [] [])).2 "/q/a.spec".toList
     (by decide)⟩

/-! ## Spec finder: properties -/

theorem GetSpecFilesLoop_cons (fs : FileSystem) (s : Session) (acc : List Str) (path : Str)
    (rest : List Str) :
    GetSpecFilesLoop fs s acc (path :: rest) =
      if !fs.FileExists path then
        .error ("Specs directory ".toList ++ path ++ " does not exist.".toList)
      else if fs.DirExists path then
        if (FindSpecFilesIn fs s path).length < 1 then
          .error ("No specifications found in ".toList ++ path ++ ".".toList)
        else GetSpecFilesLoop fs s (acc ++ FindSpecFilesIn fs s path) rest
      else if IsValidSpecExtension s path then
        GetSpecFilesLoop fs s (acc ++ [(Abs s.Getwd path).getD []]) rest
      else GetSpecFilesLoop fs s acc rest := by
  rw [GetSpecFilesLoop]

theorem GetSpecFilesLoop_error_iff (fs : FileSystem) (s : Session) (acc paths : List Str) :
    (∃ msg, GetSpecFilesLoop fs s acc paths = .error msg) ↔
      ∃ p ∈ paths, fs.FileExists p = false ∨
        (fs.DirExists p = true ∧ FindSpecFilesIn fs s p = []) := by
  induction paths generalizing acc with
  | nil => simp [GetSpecFilesLoop]
  | cons q qs ih =>
    rw [GetSpecFilesLoop_cons]
    by_cases h1 : fs.FileExists q = true
    · by_cases h2 : fs.DirExists q = true
      · by_cases h3 : FindSpecFilesIn fs s q = []
        · simp [h1, h2, h3]
        · have h3l : ¬ (FindSpecFilesIn fs s q).length < 1 := by
            have := List.length_pos.mpr h3; omega
          simp only [h1, h2, h3l, Bool.not_true, Bool.false_eq_true, if_false, if_true, ih,
            List.mem_cons, exists_eq_or_imp, h3, and_false, or_false, false_or, Bool.true_eq_false]
      · by_cases h4 : IsValidSpecExtension s q = true
        · simp only [h1, h2, h4, Bool.not_true, Bool.false_eq_true, if_false, if_true, ih,
            List.mem_cons, exists_eq_or_imp, false_and, or_false, false_or, Bool.true_eq_false]
        · simp only [h1, h2, h4, Bool.not_true, Bool.false_eq_true, if_false, ih,
            List.mem_cons, exists_eq_or_imp, false_and, or_false, false_or, Bool.true_eq_false]
    · simp [h1]

theorem GetSpecFilesLoop_first_failure (fs : FileSystem) (s : Session)
    (acc pre : List Str) (p : Str) (post : List Str)
    (hpre : ∀ q ∈ pre, ¬ (fs.FileExists q = false ∨
      (fs.DirExists q = true ∧ FindSpecFilesIn fs s q = [])))
    (hp : fs.FileExists p = false ∨ (fs.DirExists p = true ∧ FindSpecFilesIn fs s p = [])) :
    GetSpecFilesLoop fs s acc (pre ++ p :: post) =
      .error (if fs.FileExists p = false
        then "Specs directory ".toList ++ p ++ " does not exist.".toList
        else "No specifications found in ".toList ++ p ++ ".".toList) := by
  induction pre generalizing acc with
  | nil =>
    rw [List.nil_append, GetSpecFilesLoop_cons]
    by_cases h1 : fs.FileExists p = true
    · rcases hp with hp | ⟨h2, h3⟩
      · rw [h1] at hp; exact absurd hp (by simp)
      · simp [h1, h2, h3]
    · simp [h1]
  | cons q qs ih =>
    have hq := hpre q (List.mem_cons_self _ _)
    have hqs : ∀ q ∈ qs, ¬ (fs.FileExists q = false ∨
        (fs.DirExists q = true ∧ FindSpecFilesIn fs s q = [])) :=
      fun r hr => hpre r (List.mem_cons_of_mem _ hr)
    rw [not_or] at hq
    have h1 : fs.FileExists q = true := by simpa using hq.1
    rw [List.cons_append, GetSpecFilesLoop_cons]
    by_cases h2 : fs.DirExists q = true
    · have h3 : ¬ FindSpecFilesIn fs s q = [] := fun h => hq.2 ⟨h2, h⟩
      have h3l : ¬ (FindSpecFilesIn fs s q).length < 1 := by
        have := List.length_pos.mpr h3; omega
      simp only [h1, h2, h3l, Bool.not_true, Bool.false_eq_true, if_false, if_true]
      exact ih _ hqs
    · by_cases h4 : IsValidSpecExtension s q = true
      · simp only [h1, h2, h4, Bool.not_true, Bool.false_eq_true, if_false, if_true]
        exact ih _ hqs
      · simp only [h1, h2, h4, Bool.not_true, Bool.false_eq_true, if_false]
        exact ih _ hqs

theorem GetSpecFilesLoop_skip (fs : FileSystem) (s : Session)
    (acc pre : List Str) (p : Str) (post : List Str)
    (h1 : fs.FileExists p = true) (h2 : fs.DirExists p = false)
    (h3 : IsValidSpecExtension s p = false) :
    GetSpecFilesLoop fs s acc (pre ++ p :: post) = GetSpecFilesLoop fs s acc (pre ++ post) := by
  induction pre generalizing acc with
  | nil =>
    rw [List.nil_append, GetSpecFilesLoop_cons]
    simp [h1, h2, h3]
  | cons q qs ih =>
    rw [List.cons_append, List.cons_append, GetSpecFilesLoop_cons, GetSpecFilesLoop_cons]
    simp only [ih]

/-- C2: with the fatal exit as an error result, `GetSpecFiles` fails exactly
when some path of the list does not exist or is a directory in which
`FindSpecFilesIn` finds nothing; the error is the message for the first such
path in list order, and an error carries no partial result. An existing
non-directory path without a spec extension neither fails nor contributes:
the result is that of the list without it. -/
theorem GetSpecFiles_fails_iff (fs : FileSystem) (s : Session) (paths : List Str) :
    ((∃ msg, GetSpecFiles fs s paths = .error msg) ↔
        ∃ p ∈ paths, fs.FileExists p = false ∨
          (fs.DirExists p = true ∧ FindSpecFilesIn fs s p = []))
      ∧ (∀ (pre : List Str) (p : Str) (post : List Str), paths = pre ++ p :: post →
          (∀ q ∈ pre, ¬ (fs.FileExists q = false ∨
            (fs.DirExists q = true ∧ FindSpecFilesIn fs s q = []))) →
          (fs.FileExists p = false ∨ (fs.DirExists p = true ∧ FindSpecFilesIn fs s p = [])) →
          GetSpecFiles fs s paths =
            .error (if fs.FileExists p = false
              then "Specs directory ".toList ++ p ++ " does not exist.".toList
              else "No specifications found in ".toList ++ p ++ ".".toList))
      ∧ (∀ (pre : List Str) (p : Str) (post : List Str), paths = pre ++ p :: post →
          fs.FileExists p = true → fs.DirExists p = false →
          IsValidSpecExtension s p = false →
          GetSpecFiles fs s paths = GetSpecFiles fs s (pre ++ post)) := by
  refine ⟨GetSpecFilesLoop_error_iff fs s [] paths, ?_, ?_⟩
  · rintro pre p post rfl hpre hp
    exact GetSpecFilesLoop_first_failure fs s [] pre p post hpre hp
  · rintro pre p post rfl h1 h2 h3
    exact GetSpecFilesLoop_skip fs s [] pre p post h1 h2 h3

/-- The cases of C2 on the example tree: the first failing path decides the
error, and an existing file without a spec extension is passed over. -/
theorem GetSpecFiles_fails_iff_witness :
    GetSpecFiles exampleTree (sessionOf "/p".toList [] [] [])
        ["/p/a.spec".toList, "/missing".toList, "/p/concepts".toList]
        = .error "Specs directory /missing does not exist.".toList
      ∧ GetSpecFiles exampleTree (sessionOf "/p".toList [] [] [])
          ["/p/concepts/c.cpt".toList, "/p".toList]
        = GetSpecFiles exampleTree (sessionOf "/p".toList [] [] []) ["/p".toList] :=
  ⟨((GetSpecFiles_fails_iff exampleTree (sessionOf "/p".toList [] [] [])
        ["/p/a.spec".toList, "/missing".toList, "/p/concepts".toList]).2.1
        ["/p/a.spec".toList] "/missing".toList ["/p/concepts".toList] rfl
        (by decide) (by decide)).trans (by rfl),
   (GetSpecFiles_fails_iff exampleTree (sessionOf "/p".toList [] [] [])
        ["/p/concepts/c.cpt".toList, "/p".toList]).2.2
        [] "/p/concepts/c.cpt".toList ["/p".toList] rfl (by decide) (by decide) (by decide)⟩

/-! ## Exclusion registry: properties -/

theorem add_eq_union (s : Session) (value : Str) (reg : Registry) :
    add s value reg = reg ∪ (resolveEntry s value).toFinset := by
  unfold add resolveEntry
  by_cases h : IsAbs (TrimSpace value) = true
  · simp only [h, Bool.not_true, Bool.false_eq_true, if_false, if_true, Option.toFinset_some]
    ext x; simp [or_comm]
  · simp only [h, Bool.not_eq_true, Bool.not_eq_true', if_false]
    have h' : IsAbs (TrimSpace value) = false := by simpa using h
    simp only [h', if_true]
    cases hA : Abs s.Getwd (Join [s.ProjectRoot, TrimSpace value]) with
    | none => simp
    | some p => ext x; simp [or_comm]

theorem foldl_add_eq_union (s : Session) (dirs : List Str) (reg : Registry) :
    dirs.foldl (fun reg dir => add s dir reg) reg
      = reg ∪ (dirs.filterMap (resolveEntry s)).toFinset := by
  induction dirs generalizing reg with
  | nil => simp
  | cons d ds ih =>
    rw [List.foldl_cons, ih, add_eq_union]
    ext x
    cases hd : resolveEntry s d with
    | none => simp [List.filterMap_cons, hd]
    | some p => simp [List.filterMap_cons, hd]; tauto

theorem addDirectories_eq_union (s : Session) (value : Str) (reg : Registry) :
    addDirectories s value reg
      = reg ∪ ((Split ',' value).filterMap (resolveEntry s)).toFinset :=
  foldl_add_eq_union s _ reg

theorem addDirFromEnv_add (s : Session) (name : Str) (reg : Registry) :
    addDirFromEnv s name (add s) reg = reg ∪ singleOverride s name := by
  unfold addDirFromEnv singleOverride
  by_cases h : s.Getenv name = []
  · simp [h]
  · simp [h, add_eq_union]

theorem addDirFromEnv_addDirectories (s : Session) (name : Str) (reg : Registry) :
    addDirFromEnv s name (addDirectories s) reg = reg ∪ listOverride s name := by
  unfold addDirFromEnv listOverride
  by_cases h : s.Getenv name = []
  · simp [h]
  · simp [h, addDirectories_eq_union]

theorem addIgnoredDirectories_eq_union (s : Session) (reg : Registry) :
    addIgnoredDirectories s reg = reg ∪ configuredExclusions s := by
  unfold addIgnoredDirectories configuredExclusions defaultExclusions
  simp only [addDirFromEnv_add, addDirFromEnv_addDirectories]
  ext x
  simp only [Finset.mem_union, Finset.mem_insert, Finset.mem_singleton]
  tauto

/-- C4 (as amended): a rebuild adds to the registry and removes nothing.
After `addIgnoredDirectories` the registry is the prior registry together
with the four defaults under the project root and the resolved values of
the reports-dir, logs-dir and exclude-dirs overrides; started from the empty
registry it is exactly that set; and rebuilding twice with the same project
root and environment gives the same registry as rebuilding once. -/
theorem addIgnoredDirectories_accumulates (s : Session) (reg : Registry) :
    addIgnoredDirectories s reg = reg ∪ configuredExclusions s
      ∧ addIgnoredDirectories s ∅ = configuredExclusions s
      ∧ addIgnoredDirectories s (addIgnoredDirectories s reg) = addIgnoredDirectories s reg := by
  refine ⟨addIgnoredDirectories_eq_union s reg, ?_, ?_⟩
  · rw [addIgnoredDirectories_eq_union]; simp
  · simp only [addIgnoredDirectories_eq_union]
    ext x; simp only [Finset.mem_union]; tauto

/-- C4 as stated fails: after a rebuild under the project root `/old`
followed by a rebuild under `/p`, the entry `/old/gauge_bin` of the earlier
rebuild is still a member, although it is not in the set configured for
`/p`; the registry is not that set. -/
theorem addIgnoredDirectories_keeps_stale_entries :
    "/old/gauge_bin".toList ∈
        addIgnoredDirectories (sessionOf "/p".toList [] [] [])
          (addIgnoredDirectories (sessionOf "/old".toList [] [] []) ∅)
      ∧ "/old/gauge_bin".toList ∉ configuredExclusions (sessionOf "/p".toList [] [] [])
      ∧ addIgnoredDirectories (sessionOf "/p".toList [] [] [])
          (addIgnoredDirectories (sessionOf "/old".toList [] [] []) ∅)
        ≠ configuredExclusions (sessionOf "/p".toList [] [] []) := by
  decide

/-! ## Concept finder: properties -/

theorem defaultExclusions_subset (s : Session) (reg : Registry) :
    defaultExclusions s ⊆ addIgnoredDirectories s reg := by
  rw [addIgnoredDirectories_eq_union, configuredExclusions]
  intro x hx
  simp only [Finset.mem_union]
  exact Or.inr (Or.inl (Or.inl (Or.inl hx)))

theorem inWalk_of_liesUnder (d f : Str) (h : liesUnder d f = true) : inWalk d f = true := by
  simp [inWalk, h]

theorem not_mem_FindFilesInDir_of_skipped (fs : FileSystem) (root : Str)
    (isValidFile : Str → Bool) (shouldSkip : Str → FileInfo → Bool) (d f : Str)
    (hd : (⟨d, true⟩ : DirEntry) ∈ fs.entries) (hroot : inWalk root d = true)
    (hunder : liesUnder d f = true)
    (hskip : shouldSkip d (DirEntry.info ⟨d, true⟩) = true) :
    f ∉ FindFilesInDir fs root isValidFile shouldSkip := by
  intro hf
  simp only [FindFilesInDir, List.mem_map, List.mem_filter, Bool.and_eq_true,
    Bool.not_eq_true', List.any_eq_false] at hf
  obtain ⟨e, ⟨⟨_, _, hnot⟩, _⟩, rfl⟩ := hf
  have := hnot ⟨d, true⟩ hd
  simp [hroot, inWalk_of_liesUnder d _ hunder, hskip] at this

/-- C3 (as amended): `FindConceptFilesIn(dir)` never returns a file that
lies under a directory of the tree which the walk started at `dir` meets
(`dir` itself or a directory below it) and which is one of the
default-excluded directories of the project root or has a name starting
with `.`, whatever the extension of the file. -/
theorem FindConceptFilesIn_prunes_excluded (fs : FileSystem) (s : Session)
    (reg : Registry) (dir d f : Str)
    (hd : (⟨d, true⟩ : DirEntry) ∈ fs.entries)
    (hmeets : inWalk ((Abs s.Getwd dir).getD []) d = true)
    (hunder : liesUnder d f = true)
    (hexcl : d ∈ defaultExclusions s ∨ HasPrefix (basename d) ['.'] = true) :
    f ∉ (FindConceptFilesIn fs s dir reg).1 := by
  unfold FindConceptFilesIn findFilesIn
  dsimp only
  apply not_mem_FindFilesInDir_of_skipped fs _ _ _ d f hd hmeets hunder
  rcases hexcl with h | h
  · have := defaultExclusions_subset s reg h
    simp [DirEntry.info, this]
  · simp [DirEntry.info, h]

/-- C3 at the project root `/p`: the concept file `/p/reports/r.cpt` lies
under the default-excluded `/p/reports`, which the walk from `/p` meets, and
is not returned. -/
theorem FindConceptFilesIn_prunes_excluded_witness :
    "/p/reports/r.cpt".toList ∉
      (FindConceptFilesIn excludedTree (sessionOf "/p".toList [] [] []) "/p".toList ∅).1 :=
  FindConceptFilesIn_prunes_excluded excludedTree (sessionOf "/p".toList [] [] []) ∅
    "/p".toList "/p/reports".toList "/p/reports/r.cpt".toList
    (by decide) (by decide) (by decide) (Or.inl (by decide))

/-- C3 as stated fails: started at a directory that itself lies inside an
excluded or hidden directory, `FindConceptFilesIn` returns the concept files
it finds there, although their paths lie under the default-excluded
`/p/reports` or under the hidden `/p/.hidden`. -/
theorem FindConceptFilesIn_inside_excluded :
    (FindConceptFilesIn excludedTree (sessionOf "/p".toList [] [] [])
        "/p/reports/sub".toList ∅).1 = ["/p/reports/sub/x.cpt".toList]
      ∧ "/p/reports".toList ∈ defaultExclusions (sessionOf "/p".toList [] [] [])
      ∧ liesUnder "/p/reports".toList "/p/reports/sub/x.cpt".toList = true
      ∧ (FindConceptFilesIn excludedTree (sessionOf "/p".toList [] [] [])
          "/p/.hidden/sub".toList ∅).1 = ["/p/.hidden/sub/h.cpt".toList]
      ∧ HasPrefix (basename "/p/.hidden".toList) ['.'] = true
      ∧ liesUnder "/p/.hidden".toList "/p/.hidden/sub/h.cpt".toList = true := by
  decide

/-! ## Spec discovery on the example tree -/

theorem IsValidSpecExtension_iff (s : Session) (path : Str) :
    IsValidSpecExtension s path = true ↔
      ToLower s.unicodeLower (Ext path) ∈ s.GaugeSpecFileExtensions := by
  simp only [IsValidSpecExtension, List.any_eq_true, beq_iff_eq]
  constructor
  · rintro ⟨x, hx, rfl⟩; exact hx
  · intro h; exact ⟨_, h, rfl⟩

theorem FindFilesInDir_no_skip (fs : FileSystem) (root : Str) (isValidFile : Str → Bool) :
    FindFilesInDir fs root isValidFile (fun _ _ => false)
      = (((fs.entries.filter (fun e => inWalk root e.path)).filter
          (fun e => !e.isDir)).map DirEntry.path).filter isValidFile := by
  simp only [FindFilesInDir, Bool.and_false, List.any_eq_true, Bool.false_eq_true, and_false,
    exists_false, Bool.not_false, Bool.and_true, List.filter_filter, List.filter_map]
  congr 1
  apply List.filter_congr
  intro e _
  have hany : (fs.entries.any fun _ => false) = false := by
    rw [List.any_eq_false]; intro x _; simp
  rw [hany]
  simp only [Function.comp_apply]
  cases isValidFile e.path <;> cases e.isDir <;> cases inWalk root e.path <;> rfl

/-- C6 (as amended): for the project root `/p` containing exactly the files
`/p/a.spec`, `/p/reports/b.spec` and `/p/concepts/c.cpt`, with `.spec` a
configured spec extension and `.cpt` not one, `FindSpecFilesIn("/p")`
returns `/p/a.spec` and `/p/reports/b.spec`: the default exclusions do not
apply to spec discovery. -/
theorem FindSpecFilesIn_example (s : Session)
    (hspec : ".spec".toList ∈ s.GaugeSpecFileExtensions)
    (hcpt : ".cpt".toList ∉ s.GaugeSpecFileExtensions) :
    FindSpecFilesIn exampleTree s "/p".toList
      = ["/p/a.spec".toList, "/p/reports/b.spec".toList] := by
  have hA : (Abs s.Getwd "/p".toList).getD [] = "/p".toList := rfl
  have hfiles : ((exampleTree.entries.filter (fun e => inWalk "/p".toList e.path)).filter
      (fun e => !e.isDir)).map DirEntry.path
      = ["/p/a.spec".toList, "/p/concepts/c.cpt".toList, "/p/reports/b.spec".toList] := by
    decide
  have h1 : IsValidSpecExtension s "/p/a.spec".toList = true :=
    (IsValidSpecExtension_iff s _).2 hspec
  have h2 : IsValidSpecExtension s "/p/reports/b.spec".toList = true :=
    (IsValidSpecExtension_iff s _).2 hspec
  have h3 : IsValidSpecExtension s "/p/concepts/c.cpt".toList = false := by
    rw [Bool.eq_false_iff]
    exact fun h => hcpt ((IsValidSpecExtension_iff s _).1 h)
  unfold FindSpecFilesIn findFilesIn
  dsimp only
  rw [hA, FindFilesInDir_no_skip, hfiles]
  simp only [List.filter_cons, List.filter_nil, h1, h2, h3, if_true, Bool.false_eq_true,
    if_false]

/-- C6 with the default spec extensions `.spec` and `.md`. -/
theorem FindSpecFilesIn_example_witness :
    FindSpecFilesIn exampleTree (sessionOf "/p".toList [] [] []) "/p".toList
      = ["/p/a.spec".toList, "/p/reports/b.spec".toList] :=
  FindSpecFilesIn_example (sessionOf "/p".toList [] [] []) (by decide) (by decide)

/-- C6 as stated fails: with the default exclusions active and `.spec`
configured, `FindSpecFilesIn("/p")` is not `["/p/a.spec"]`; it also returns
`/p/reports/b.spec`. -/
theorem FindSpecFilesIn_example_not_singleton :
    ".spec".toList ∈ (sessionOf "/p".toList [] [] []).GaugeSpecFileExtensions
      ∧ "/p/reports".toList ∈
          addIgnoredDirectories (sessionOf "/p".toList [] [] []) ∅
      ∧ FindSpecFilesIn exampleTree (sessionOf "/p".toList [] [] []) "/p".toList
          ≠ ["/p/a.spec".toList]
      ∧ "/p/reports/b.spec".toList ∈
          FindSpecFilesIn exampleTree (sessionOf "/p".toList [] [] []) "/p".toList := by
  decide

/-! ## Extension classifier: properties -/

theorem extScan_dot (t rest acc : Str) (ht : ∀ c ∈ t, c ≠ '/' ∧ c ≠ '.') :
    extScan (t ++ '.' :: rest) acc = '.' :: (t.reverse ++ acc) := by
  induction t generalizing acc with
  | nil => simp [extScan]
  | cons c t ih =>
    have hc := ht c (List.mem_cons_self _ _)
    have ht' : ∀ x ∈ t, x ≠ '/' ∧ x ≠ '.' := fun x hx => ht x (List.mem_cons_of_mem _ hx)
    rw [List.cons_append, extScan]
    simp only [hc.1, hc.2, if_false]
    rw [ih _ ht']
    simp

theorem extScan_cases (r acc : Str) :
    extScan r acc = [] ∨
      ∃ t rest, (∀ c ∈ t, c ≠ '/' ∧ c ≠ '.') ∧ r = t ++ '.' :: rest
        ∧ extScan r acc = '.' :: (t.reverse ++ acc) := by
  induction r generalizing acc with
  | nil => left; rfl
  | cons c r ih =>
    rw [extScan]
    by_cases h1 : c = '/'
    · left; simp [h1]
    · by_cases h2 : c = '.'
      · right
        refine ⟨[], r, by simp, by simp [h2], by simp [h1, h2]⟩
      · simp only [h1, h2, if_false]
        rcases ih (c :: acc) with h | ⟨t, rest, ht, hr, he⟩
        · left; exact h
        · right
          refine ⟨c :: t, rest, ?_, by simp [hr], by simp [he]⟩
          intro x hx
          rcases List.mem_cons.1 hx with rfl | hx
          · exact ⟨h1, h2⟩
          · exact ht x hx

theorem extScan_no_dot (name rest acc : Str) (hname : '.' ∉ name)
    (hrest : rest = [] ∨ rest.head? = some '/') :
    extScan (name ++ rest) acc = [] := by
  induction name generalizing acc with
  | nil =>
    rcases hrest with rfl | h
    · rfl
    · cases rest with
      | nil => rfl
      | cons c cs =>
        simp only [List.head?_cons, Option.some.injEq] at h
        simp [extScan, h]
  | cons c name ih =>
    have hc : c ≠ '.' := fun e => hname (e ▸ List.mem_cons_self _ _)
    have hn : '.' ∉ name := fun e => hname (List.mem_cons_of_mem _ e)
    rw [List.cons_append, extScan]
    by_cases h1 : c = '/'
    · simp [h1]
    · simp only [h1, hc, if_false]
      exact ih _ hn

/-- `Ext` of a path ending in a dot followed by runes that are neither dots
nor separators is that ending. -/
theorem Ext_append_dot (front t : Str) (ht : ∀ c ∈ t, c ≠ '/' ∧ c ≠ '.') :
    Ext (front ++ '.' :: t) = '.' :: t := by
  have h := extScan_dot t.reverse front.reverse []
    (fun c hc => ht c (List.mem_reverse.1 hc))
  simpa [Ext] using h

/-- The extension is empty, or the path ends in it and it is a dot followed
by runes that are neither dots nor separators. -/
theorem Ext_cases (path : Str) :
    Ext path = [] ∨
      ∃ front t, (∀ c ∈ t, c ≠ '/' ∧ c ≠ '.') ∧ path = front ++ '.' :: t
        ∧ Ext path = '.' :: t := by
  rcases extScan_cases path.reverse [] with h | ⟨t, rest, ht, hr, he⟩
  · left; exact h
  · right
    refine ⟨rest.reverse, t.reverse, fun c hc => ht c (List.mem_reverse.1 hc), ?_, ?_⟩
    · have := congrArg List.reverse hr
      simpa using this
    · simpa [Ext] using he

/-- A path whose final element has no dot has no extension. -/
theorem Ext_no_dot (dir name : Str) (hdir : dir = [] ∨ dir.getLast? = some '/')
    (hname : '.' ∉ name) : Ext (dir ++ name) = [] := by
  have h := extScan_no_dot name.reverse dir.reverse []
    (fun h => hname (List.mem_reverse.1 h))
    (by
      rcases hdir with rfl | h
      · left; rfl
      · right; simpa [List.head?_reverse] using h)
  simpa [Ext] using h

theorem stem_append_Ext (path : Str) : stem path ++ Ext path = path := by
  unfold stem
  rcases Ext_cases path with h | ⟨front, t, _, hp, he⟩
  · simp [h]
  · rw [he]
    conv_lhs => rw [hp]
    conv_rhs => rw [hp]
    have : (front ++ '.' :: t).length - ('.' :: t).length = front.length := by
      simp
    rw [this]
    simp

theorem caseVariant_nil_left (u : Char → Char) (e : Str) (h : caseVariant u [] e = true) :
    e = [] := by
  cases e with
  | nil => rfl
  | cons d ds => simp [caseVariant] at h

theorem sameLetter_lower (u : Char → Char) (c d : Char) (h : sameLetter u c d = true) :
    lowerRune u c = lowerRune u d := by
  simp only [sameLetter, Bool.or_eq_true, beq_iff_eq, Bool.and_eq_true] at h
  rcases h with rfl | h
  · rfl
  · exact h.1.1.1.1

theorem sameLetter_plain (u : Char → Char) (c d : Char) (h : sameLetter u c d = true)
    (hc : c ≠ '/' ∧ c ≠ '.') : d ≠ '/' ∧ d ≠ '.' := by
  simp only [sameLetter, Bool.or_eq_true, beq_iff_eq, Bool.and_eq_true, bne_iff_ne] at h
  rcases h with rfl | h
  · exact hc
  · exact ⟨h.2, h.1.2⟩

theorem sameLetter_dot (u : Char → Char) (d : Char) (h : sameLetter u '.' d = true) :
    d = '.' := by
  simp only [sameLetter, Bool.or_eq_true, beq_iff_eq, Bool.and_eq_true, bne_iff_ne] at h
  rcases h with h | h
  · exact h.symm
  · exact absurd rfl h.1.1.1.2

theorem caseVariant_lower (u : Char → Char) (a b : Str) (h : caseVariant u a b = true) :
    ToLower u a = ToLower u b := by
  induction a generalizing b with
  | nil => rw [caseVariant_nil_left u b h]
  | cons c cs ih =>
    cases b with
    | nil => simp [caseVariant] at h
    | cons d ds =>
      simp only [caseVariant, Bool.and_eq_true] at h
      simp only [ToLower, List.map_cons, List.cons.injEq]
      exact ⟨sameLetter_lower u c d h.1, ih ds h.2⟩

theorem caseVariant_plain (u : Char → Char) (a b : Str) (h : caseVariant u a b = true)
    (ha : ∀ c ∈ a, c ≠ '/' ∧ c ≠ '.') : ∀ c ∈ b, c ≠ '/' ∧ c ≠ '.' := by
  induction a generalizing b with
  | nil => rw [caseVariant_nil_left u b h]; simp
  | cons c cs ih =>
    cases b with
    | nil => simp
    | cons d ds =>
      simp only [caseVariant, Bool.and_eq_true] at h
      intro x hx
      rcases List.mem_cons.1 hx with rfl | hx
      · exact sameLetter_plain u c x h.1 (ha c (List.mem_cons_self _ _))
      · exact ih ds h.2 (fun y hy => ha y (List.mem_cons_of_mem _ hy)) x hx

/-- Changing the letter case of the extension changes neither where the
extension starts nor its lower-case form. -/
theorem ToLower_Ext_of_differOnlyInExtensionCase (u : Char → Char) (p q : Str)
    (h : differOnlyInExtensionCase u p q = true) :
    ToLower u (Ext q) = ToLower u (Ext p) := by
  simp only [differOnlyInExtensionCase, Bool.and_eq_true, beq_iff_eq] at h
  obtain ⟨htake, hvar⟩ := h
  have hq : q = stem p ++ q.drop (stem p).length := by
    conv_lhs => rw [← List.take_append_drop (stem p).length q, htake]
  rcases Ext_cases p with he | ⟨front, t, ht, hp, he⟩
  · rw [he] at hvar
    have hnil := caseVariant_nil_left u _ hvar
    have hp : stem p = p := by simpa [he] using stem_append_Ext p
    rw [hnil, List.append_nil, hp] at hq
    rw [hq]
  · rw [he] at hvar
    cases hd : q.drop (stem p).length with
    | nil => rw [hd] at hvar; simp [caseVariant] at hvar
    | cons d ds =>
      rw [hd] at hvar hq
      simp only [caseVariant, Bool.and_eq_true] at hvar
      have hdot := sameLetter_dot u d hvar.1
      subst hdot
      have hds := caseVariant_plain u t ds hvar.2 ht
      rw [hq, Ext_append_dot _ ds hds, he]
      simp only [ToLower, List.map_cons, List.cons.injEq, true_and]
      exact (caseVariant_lower u t ds hvar.2).symm

/-- C7: for every configured spec-extension list that does not contain
`.cpt`, `IsValidSpecExtension` and `IsValidConceptExtension` are never both
true of the same path, and each gives the same answer for two paths that
differ only in the letter case of their extension. -/
theorem classifier_exclusive_and_case_insensitive (s : Session)
    (hcpt : cptFileExtension ∉ s.GaugeSpecFileExtensions) :
    (∀ path : Str,
        ¬ (IsValidSpecExtension s path = true ∧ IsValidConceptExtension s path = true))
      ∧ (∀ p q : Str, differOnlyInExtensionCase s.unicodeLower p q = true →
          IsValidSpecExtension s p = IsValidSpecExtension s q
            ∧ IsValidConceptExtension s p = IsValidConceptExtension s q) := by
  constructor
  · rintro path ⟨h1, h2⟩
    rw [IsValidSpecExtension_iff] at h1
    simp only [IsValidConceptExtension, beq_iff_eq] at h2
    exact hcpt (h2 ▸ h1)
  · intro p q h
    have he := ToLower_Ext_of_differOnlyInExtensionCase s.unicodeLower p q h
    simp only [IsValidSpecExtension, IsValidConceptExtension, he, and_self]

/-- C7 with the default extensions: `/p/a.spec` and `/p/a.SpEc` are both
spec files and neither is a concept file. -/
theorem classifier_exclusive_and_case_insensitive_witness :
    ¬ (IsValidSpecExtension (sessionOf "/p".toList [] [] []) "/p/a.spec".toList = true
        ∧ IsValidConceptExtension (sessionOf "/p".toList [] [] []) "/p/a.spec".toList = true)
      ∧ IsValidSpecExtension (sessionOf "/p".toList [] [] []) "/p/a.spec".toList
          = IsValidSpecExtension (sessionOf "/p".toList [] [] []) "/p/a.SpEc".toList
      ∧ IsValidConceptExtension (sessionOf "/p".toList [] [] []) "/p/a.spec".toList
          = IsValidConceptExtension (sessionOf "/p".toList [] [] []) "/p/a.SpEc".toList :=
  ⟨(classifier_exclusive_and_case_insensitive (sessionOf "/p".toList [] [] [])
      (by decide)).1 "/p/a.spec".toList,
   (classifier_exclusive_and_case_insensitive (sessionOf "/p".toList [] [] [])
      (by decide)).2 "/p/a.spec".toList "/p/a.SpEc".toList (by decide)⟩

/-- C9: for every configured spec-extension list and every path whose final
element has no extension (no dot after the last separator),
`IsValidSpecExtension`, `IsValidConceptExtension` and `IsGaugeFile` are all
false. The configured list holds file-extension strings, so none of its
entries is the empty string (`hext`). -/
theorem no_extension_classifies_as_neither (s : Session) (dir name : Str)
    (hext : [] ∉ s.GaugeSpecFileExtensions)
    (hdir : dir = [] ∨ dir.getLast? = some '/') (hname : '.' ∉ name) :
    IsValidSpecExtension s (dir ++ name) = false
      ∧ IsValidConceptExtension s (dir ++ name) = false
      ∧ IsGaugeFile s (dir ++ name) = false := by
  have he := Ext_no_dot dir name hdir hname
  have hc : IsValidConceptExtension s (dir ++ name) = false := by
    simp [IsValidConceptExtension, he, ToLower, cptFileExtension]
  have hs : IsValidSpecExtension s (dir ++ name) = false := by
    rw [Bool.eq_false_iff]
    intro h
    rw [IsValidSpecExtension_iff, he] at h
    exact hext (by simpa [ToLower] using h)
  exact ⟨hs, hc, by simp [IsGaugeFile, IsConcept, IsSpec, hc, hs]⟩

/-- C9 with the default extensions: `/p/specs/README` is neither a spec nor
a concept nor a gauge file. -/
theorem no_extension_classifies_as_neither_witness :
    IsValidSpecExtension (sessionOf "/p".toList [] [] []) "/p/specs/README".toList = false
      ∧ IsValidConceptExtension (sessionOf "/p".toList [] [] []) "/p/specs/README".toList = false
      ∧ IsGaugeFile (sessionOf "/p".toList [] [] []) "/p/specs/README".toList = false :=
  no_extension_classifies_as_neither (sessionOf "/p".toList [] [] [])
    "/p/specs/".toList "README".toList (by decide) (Or.inr (by decide)) (by decide)

/-! ## `filepath.Clean` and `filepath.Join`: properties -/

theorem Split_ne_nil (sep : Char) (s : Str) : Split sep s ≠ [] := by
  cases s with
  | nil => simp [Split]
  | cons c cs =>
    rw [Split]
    by_cases h : c = sep
    · simp [h]
    · simp only [h, if_false]
      split <;> simp

theorem Split_append_sep (sep : Char) (s : Str) :
    Split sep (s ++ [sep]) = Split sep s ++ [[]] := by
  induction s with
  | nil => simp [Split]
  | cons c cs ih =>
    rw [List.cons_append, Split, Split, ih]
    by_cases h : c = sep
    · simp [h]
    · simp only [h, if_false]
      cases hs : Split sep cs with
      | nil => exact absurd hs (Split_ne_nil sep cs)
      | cons piece pieces => simp

theorem HasPrefix_sep_append (r t : Str) (hr : r ≠ []) :
    HasPrefix (r ++ t) ['/'] = HasPrefix r ['/'] := by
  cases r with
  | nil => exact absurd rfl hr
  | cons c cs => simp [HasPrefix, List.isPrefixOf]

/-- A trailing separator does not change the cleaned path. -/
theorem Clean_append_sep (r : Str) (hr : r ≠ []) : Clean (r ++ ['/']) = Clean r := by
  have hne : r ++ ['/'] ≠ [] := by simp
  unfold Clean
  simp only [hne, hr, if_false, Split_append_sep, List.foldl_append, List.foldl_cons,
    List.foldl_nil, HasPrefix_sep_append r ['/'] hr]
  simp [cleanStep]

theorem ne_nil_of_IsAbs (r : Str) (h : IsAbs r = true) : r ≠ [] := by
  rintro rfl
  simp [IsAbs, HasPrefix, List.isPrefixOf] at h

/-- Joining a cleaned absolute path with the empty string gives it back. -/
theorem Join_empty_of_clean (r : Str) (habs : IsAbs r = true) (hclean : Clean r = r) :
    Join [r, []] = r := by
  have hr := ne_nil_of_IsAbs r habs
  cases r with
  | nil => exact absurd rfl hr
  | cons c cs =>
    have : Join [c :: cs, []] = Clean ((c :: cs) ++ ['/']) := by
      simp [Join, List.dropWhile, StringsJoin]
    rw [this, Clean_append_sep _ hr, hclean]

theorem resolveEntry_blank (s : Session) (e : Str) (habs : IsAbs s.ProjectRoot = true)
    (hclean : Clean s.ProjectRoot = s.ProjectRoot) (he : TrimSpace e = []) :
    resolveEntry s e = some s.ProjectRoot := by
  have hnot : IsAbs ([] : Str) = false := by decide
  unfold resolveEntry
  rw [he]
  simp only [hnot, Bool.false_eq_true, if_false]
  rw [Join_empty_of_clean _ habs hclean]
  simp [Abs, habs, hclean]

/-- C10: for every absolute, cleaned project root and every value of the
comma-separated exclude-directories list that has an empty or
whitespace-only entry, `addDirectories` inserts the project root itself
into the registry: the trimmed empty entry is resolved by joining it with
the project root. -/
theorem addDirectories_blank_entry_inserts_root (s : Session) (value : Str) (reg : Registry)
    (habs : IsAbs s.ProjectRoot = true) (hclean : Clean s.ProjectRoot = s.ProjectRoot)
    (hblank : ∃ e ∈ Split ',' value, TrimSpace e = []) :
    s.ProjectRoot ∈ addDirectories s value reg
      ∧ (∀ e, TrimSpace e = [] →
          Abs s.Getwd (Join [s.ProjectRoot, TrimSpace e]) = some s.ProjectRoot) := by
  constructor
  · obtain ⟨e, he, hte⟩ := hblank
    rw [addDirectories_eq_union]
    simp only [Finset.mem_union, List.mem_toFinset, List.mem_filterMap]
    exact Or.inr ⟨e, he, resolveEntry_blank s e habs hclean hte⟩
  · intro e hte
    have := resolveEntry_blank s e habs hclean hte
    have hnot : IsAbs ([] : Str) = false := by decide
    simpa [resolveEntry, hte, hnot] using this

/-- C10 for the project root `/p` and the list `a, ,b`: the registry gets
`/p` itself. -/
theorem addDirectories_blank_entry_inserts_root_witness :
    "/p".toList ∈ addDirectories (sessionOf "/p".toList [] [] []) "a, ,b".toList ∅ :=
  (addDirectories_blank_entry_inserts_root (sessionOf "/p".toList [] [] []) "a, ,b".toList ∅
    (by decide) (by decide) ⟨" ".toList, by decide, by decide⟩).1

/-! ## `filepath.Clean` on rooted paths is idempotent -/

theorem Split_free (sep : Char) (s : Str) : ∀ e ∈ Split sep s, sep ∉ e := by
  induction s with
  | nil => simp [Split]
  | cons c cs ih =>
    rw [Split]
    by_cases h : c = sep
    · simp only [h, if_true, List.mem_cons]
      rintro e (rfl | he)
      · simp
      · exact ih e he
    · simp only [h, if_false]
      cases hs : Split sep cs with
      | nil => exact absurd hs (Split_ne_nil sep cs)
      | cons piece pieces =>
        rw [hs] at ih
        simp only [List.mem_cons]
        rintro e (rfl | he)
        · have := ih piece (List.mem_cons_self _ _)
          simp only [List.mem_cons, not_or]
          exact ⟨fun e => h e.symm, this⟩
        · exact ih e (List.mem_cons_of_mem _ he)

theorem Split_free_single (sep : Char) (e : Str) (he : sep ∉ e) : Split sep e = [e] := by
  induction e with
  | nil => rfl
  | cons c cs ih =>
    have hc : c ≠ sep := fun h => he (h ▸ List.mem_cons_self _ _)
    have hcs : sep ∉ cs := fun h => he (List.mem_cons_of_mem _ h)
    rw [Split, ih hcs]
    simp [hc]

theorem Split_sep_cons (sep : Char) (e rest : Str) (he : sep ∉ e) :
    Split sep (e ++ sep :: rest) = e :: Split sep rest := by
  induction e with
  | nil => simp [Split]
  | cons c cs ih =>
    have hc : c ≠ sep := fun h => he (h ▸ List.mem_cons_self _ _)
    have hcs : sep ∉ cs := fun h => he (List.mem_cons_of_mem _ h)
    rw [List.cons_append, Split, ih hcs]
    simp [hc]

theorem Split_StringsJoin (sep : Char) (st : List Str) (hne : st ≠ [])
    (hfree : ∀ e ∈ st, sep ∉ e) : Split sep (StringsJoin sep st) = st := by
  induction st with
  | nil => exact absurd rfl hne
  | cons e es ih =>
    cases es with
    | nil => exact Split_free_single sep e (hfree e (List.mem_cons_self _ _))
    | cons f fs =>
      rw [StringsJoin, Split_sep_cons sep e _ (hfree e (List.mem_cons_self _ _)),
        ih (by simp) (fun x hx => hfree x (List.mem_cons_of_mem _ hx))]

theorem cleanStep_rooted_real (out : List Str) (elem : Str) (hout : ∀ e ∈ out, realElem e)
    (helem : '/' ∉ elem) : ∀ e ∈ cleanStep true out elem, realElem e := by
  unfold cleanStep
  by_cases h1 : elem = []
  · simpa [h1] using hout
  · by_cases h2 : elem = ['.']
    · simpa [h1, h2] using hout
    · by_cases h3 : elem = ['.', '.']
      · simp only [h1, h2, h3, if_false, if_true]
        cases out with
        | nil => simp
        | cons top below =>
          have hb : ∀ e ∈ below, realElem e := fun e he => hout e (List.mem_cons_of_mem _ he)
          by_cases h4 : top = ['.', '.']
          · simpa [h4] using hout
          · simpa [h4] using hb
      · simp only [h1, h2, h3, if_false, List.mem_cons]
        rintro e (rfl | he)
        · exact ⟨h1, h2, h3, helem⟩
        · exact hout e he

theorem foldl_cleanStep_rooted_real (elems out : List Str) (hout : ∀ e ∈ out, realElem e)
    (helems : ∀ e ∈ elems, '/' ∉ e) :
    ∀ e ∈ elems.foldl (cleanStep true) out, realElem e := by
  induction elems generalizing out with
  | nil => simpa using hout
  | cons x xs ih =>
    rw [List.foldl_cons]
    exact ih _ (cleanStep_rooted_real out x hout (helems x (List.mem_cons_self _ _)))
      (fun e he => helems e (List.mem_cons_of_mem _ he))

theorem cleanStep_real (rooted : Bool) (out : List Str) (elem : Str) (h : realElem elem) :
    cleanStep rooted out elem = elem :: out := by
  simp [cleanStep, h.1, h.2.1, h.2.2.1]

theorem foldl_cleanStep_real (rooted : Bool) (elems out : List Str)
    (h : ∀ e ∈ elems, realElem e) :
    elems.foldl (cleanStep rooted) out = elems.reverse ++ out := by
  induction elems generalizing out with
  | nil => simp
  | cons x xs ih =>
    rw [List.foldl_cons, cleanStep_real rooted out x (h x (List.mem_cons_self _ _)),
      ih _ (fun e he => h e (List.mem_cons_of_mem _ he))]
    simp

/-- The cleaned form of a rooted path: the separator followed by real
elements joined by separators. -/
theorem Clean_rooted_form (y : Str) (hy : HasPrefix y ['/'] = true) :
    ∃ st : List Str, (∀ e ∈ st, realElem e) ∧ Clean y = '/' :: StringsJoin '/' st := by
  have hne : y ≠ [] := by
    rintro rfl; simp [HasPrefix, List.isPrefixOf] at hy
  refine ⟨((Split '/' y).foldl (cleanStep true) []).reverse, ?_, ?_⟩
  · intro e he
    exact foldl_cleanStep_rooted_real _ [] (by simp) (Split_free '/' y) e
      (List.mem_reverse.1 he)
  · simp [Clean, hne, hy]

theorem Clean_of_rooted_form (st : List Str) (hst : ∀ e ∈ st, realElem e) :
    Clean ('/' :: StringsJoin '/' st) = '/' :: StringsJoin '/' st := by
  have hsplit : (Split '/' ('/' :: StringsJoin '/' st)).foldl (cleanStep true) []
      = st.reverse := by
    rw [Split]
    simp only [if_true, List.foldl_cons]
    have h0 : cleanStep true [] [] = [] := by simp [cleanStep]
    rw [h0]
    cases st with
    | nil => simp [StringsJoin, Split, cleanStep]
    | cons e es =>
      rw [Split_StringsJoin '/' (e :: es) (by simp) (fun x hx => (hst x hx).2.2.2),
        foldl_cleanStep_real true _ [] hst]
      simp
  simp [Clean, HasPrefix, List.isPrefixOf, hsplit]

theorem Clean_rooted_idem (y : Str) (hy : HasPrefix y ['/'] = true) :
    Clean (Clean y) = Clean y ∧ IsAbs (Clean y) = true := by
  obtain ⟨st, hst, hc⟩ := Clean_rooted_form y hy
  rw [hc]
  exact ⟨Clean_of_rooted_form st hst, by simp [IsAbs, HasPrefix, List.isPrefixOf]⟩

/-- Joining an absolute path with any string gives an absolute, cleaned
path, which `filepath.Abs` returns unchanged. -/
theorem Join_root (wd : Option Str) (root v : Str) (habs : IsAbs root = true) :
    IsAbs (Join [root, v]) = true ∧ Clean (Join [root, v]) = Join [root, v]
      ∧ Abs wd (Join [root, v]) = some (Join [root, v]) := by
  have hr := ne_nil_of_IsAbs root habs
  cases root with
  | nil => exact absurd rfl hr
  | cons c cs =>
    have hJ : Join [c :: cs, v] = Clean ((c :: cs) ++ '/' :: v) := by
      simp [Join, List.dropWhile, StringsJoin]
    have hp : HasPrefix ((c :: cs) ++ '/' :: v) ['/'] = true := by
      rw [HasPrefix_sep_append _ _ hr]; exact habs
    obtain ⟨h1, h2⟩ := Clean_rooted_idem _ hp
    rw [hJ]
    refine ⟨h2, h1, ?_⟩
    unfold Abs
    rw [if_pos h2, h1]

/-! ## Exclusion registry: its members -/

theorem mem_configuredExclusions (s : Session) (m : Str) :
    m ∈ configuredExclusions s ↔
      m ∈ defaultExclusions s ∨ ∃ e ∈ overrideEntries s, resolveEntry s e = some m := by
  unfold configuredExclusions singleOverride listOverride overrideEntries
  by_cases h1 : s.Getenv s.GaugeReportsDir = [] <;>
    by_cases h2 : s.Getenv s.LogsDirectory = [] <;>
    by_cases h3 : s.Getenv gaugeExcludeDirectories = [] <;>
    simp only [h1, h2, h3, if_true, if_false, Finset.mem_union, Finset.not_mem_empty,
      or_false, List.append_nil, List.nil_append, List.not_mem_nil, false_and, exists_false,
      List.mem_toFinset, List.mem_filterMap, Option.mem_toFinset, Option.mem_def,
      List.mem_append, List.mem_singleton, or_and_right, exists_or, exists_eq_left, or_assoc]

theorem mem_foldl_addIgnoredDirectories (sessions : List Session) (reg : Registry) (m : Str) :
    m ∈ sessions.foldl (fun reg s => addIgnoredDirectories s reg) reg ↔
      m ∈ reg ∨ ∃ s ∈ sessions, m ∈ configuredExclusions s := by
  induction sessions generalizing reg with
  | nil => simp
  | cons s ss ih =>
    rw [List.foldl_cons, ih, addIgnoredDirectories_eq_union]
    simp only [Finset.mem_union, List.mem_cons, exists_eq_or_imp, or_assoc]

theorem mem_rebuildAll (sessions : List Session) (m : Str) :
    m ∈ rebuildAll sessions ↔ ∃ s ∈ sessions, m ∈ configuredExclusions s := by
  unfold rebuildAll
  rw [mem_foldl_addIgnoredDirectories]
  simp

theorem defaultExclusions_clean (s : Session) (habs : IsAbs s.ProjectRoot = true) (m : Str)
    (hm : m ∈ defaultExclusions s) : IsAbs m = true ∧ Clean m = m := by
  simp only [defaultExclusions, Finset.mem_insert, Finset.mem_singleton] at hm
  rcases hm with rfl | rfl | rfl | rfl <;>
    exact ⟨(Join_root none _ _ habs).1, (Join_root none _ _ habs).2.1⟩

theorem resolveEntry_relative (s : Session) (e : Str) (habs : IsAbs s.ProjectRoot = true)
    (hrel : IsAbs (TrimSpace e) = false) :
    resolveEntry s e = some (Join [s.ProjectRoot, TrimSpace e]) := by
  unfold resolveEntry
  simp only [hrel, Bool.false_eq_true, if_false]
  exact (Join_root s.Getwd _ _ habs).2.2

/-- C5 (as amended): starting from the empty registry, after any sequence
of rebuilds with absolute project roots and arbitrary values of the
reports-dir, logs-dir and comma-separated exclude-dirs overrides, every
member of the registry is an absolute path, and it is cleaned unless it is
an absolute override entry, which is inserted as given (trimmed of white
space). The defaults are members and cleaned, and a relative override entry
is inserted as its resolution against the project root, which is cleaned. -/
theorem registry_members_absolute (sessions : List Session)
    (habs : ∀ s ∈ sessions, IsAbs s.ProjectRoot = true) :
    (∀ m ∈ rebuildAll sessions, IsAbs m = true ∧
        (Clean m = m ∨ ∃ s ∈ sessions, ∃ e ∈ overrideEntries s,
          IsAbs (TrimSpace e) = true ∧ m = TrimSpace e))
      ∧ (∀ s ∈ sessions, ∀ m ∈ defaultExclusions s, m ∈ rebuildAll sessions ∧ Clean m = m)
      ∧ (∀ s ∈ sessions, ∀ e ∈ overrideEntries s, IsAbs (TrimSpace e) = false →
          Join [s.ProjectRoot, TrimSpace e] ∈ rebuildAll sessions
            ∧ Clean (Join [s.ProjectRoot, TrimSpace e]) = Join [s.ProjectRoot, TrimSpace e]) := by
  refine ⟨?_, ?_, ?_⟩
  · intro m hm
    rw [mem_rebuildAll] at hm
    obtain ⟨s, hs, hm⟩ := hm
    rw [mem_configuredExclusions] at hm
    rcases hm with hm | ⟨e, he, hr⟩
    · have := defaultExclusions_clean s (habs s hs) m hm
      exact ⟨this.1, Or.inl this.2⟩
    · by_cases ha : IsAbs (TrimSpace e) = true
      · have hme : m = TrimSpace e := by
          simp only [resolveEntry, ha, if_true, Option.some.injEq] at hr
          exact hr.symm
        exact ⟨hme ▸ ha, Or.inr ⟨s, hs, e, he, ha, hme⟩⟩
      · have ha' : IsAbs (TrimSpace e) = false := by simpa using ha
        rw [resolveEntry_relative s e (habs s hs) ha', Option.some.injEq] at hr
        subst hr
        have := Join_root none s.ProjectRoot (TrimSpace e) (habs s hs)
        exact ⟨this.1, Or.inl this.2.1⟩
  · intro s hs m hm
    refine ⟨?_, (defaultExclusions_clean s (habs s hs) m hm).2⟩
    rw [mem_rebuildAll]
    exact ⟨s, hs, (mem_configuredExclusions s m).2 (Or.inl hm)⟩
  · intro s hs e he hrel
    refine ⟨?_, (Join_root none s.ProjectRoot (TrimSpace e) (habs s hs)).2.1⟩
    rw [mem_rebuildAll]
    exact ⟨s, hs, (mem_configuredExclusions s _).2
      (Or.inr ⟨e, he, resolveEntry_relative s e (habs s hs) hrel⟩)⟩

/-- C5 for one rebuild under `/p` with the exclude list `tmp, /x/`: the
relative entry is stored as the cleaned `/p/tmp`. -/
theorem registry_members_absolute_witness :
    Join ["/p".toList, TrimSpace "tmp".toList]
        ∈ rebuildAll [sessionOf "/p".toList [] [] "tmp, /x/".toList]
      ∧ Clean (Join ["/p".toList, TrimSpace "tmp".toList])
        = Join ["/p".toList, TrimSpace "tmp".toList] :=
  (registry_members_absolute [sessionOf "/p".toList [] [] "tmp, /x/".toList]
    (by intro s hs; rw [List.mem_singleton.1 hs]; decide)).2.2
    (sessionOf "/p".toList [] [] "tmp, /x/".toList) (List.mem_singleton.2 rfl)
    "tmp".toList (by decide) (by decide)

/-- C5 as stated fails: with the absolute project root `/p` and the exclude
list `tmp, /x/`, the registry has the member `/x/`, an absolute override
entry stored as given, which is not a cleaned path (its cleaned form is
`/x`). -/
theorem registry_member_not_cleaned :
    IsAbs (sessionOf "/p".toList [] [] "tmp, /x/".toList).ProjectRoot = true
      ∧ "/x/".toList ∈ rebuildAll [sessionOf "/p".toList [] [] "tmp, /x/".toList]
      ∧ Clean "/x/".toList = "/x".toList
      ∧ Clean "/x/".toList ≠ "/x/".toList := by
  decide

end FileUtils
